import Mathlib

/-!
Shallow embedding of the `ticker_scraper` repository (three Python scrapers:
`hedgeye_new_scraper.py`, `bearcave_scraper.py`, `ibd_api_scraper.py`) and
verification of the specification's claims about it.

Modelling conventions:
* wall-clock times are `Nat` seconds; Python's
  `(current_time - limit_time).total_seconds() >= 900` becomes
  `900 ≤ now - t` on `Nat` (for `now < t` both sides are false, matching the
  negative-seconds case in Python);
* `random.choice` is modelled by an arbitrary index `choice`, resolved as
  `choice % length`, which reaches every element of the list;
* `random.sample` is modelled by an arbitrary selection function constrained
  by `SampleSpec` (every selected element comes from the input list, and
  selections from a duplicate-free list are duplicate-free) — exactly the
  guarantees `random.sample` gives;
* persisted JSON files are modelled as `Option` fields holding the decoded
  document (`none` = file absent);
* Python `set`s are modelled as duplicate-free `List`s with membership-based
  insertion.
-/

namespace TickerScraper

/-! ### hedgeye_new_scraper.py: ProxyManager -/

/-- State of `ProxyManager` (`hedgeye_new_scraper.py` lines 52-106).
`rateLimited` mirrors `self.rate_limited : Dict[str, datetime]` as an
association list proxy ↦ time it was marked; `savedFile` mirrors the JSON
document at `RATE_LIMIT_PROXY_FILE` (`none` when the file does not exist). -/
structure ProxyManager where
  proxies : List String
  rateLimited : List (String × Nat)
  savedFile : Option (List (String × Nat))
deriving DecidableEq, Repr

/-- Entries of the rate-limit map that `get_next_proxy` keeps: those whose
15-minute (900 second) exclusion has not elapsed (`get_next_proxy` deletes
entries with `(current_time - limit_time).total_seconds() >= 900`). -/
def pruneExpired (rl : List (String × Nat)) (now : Nat) : List (String × Nat) :=
  rl.filter (fun e => !(decide (900 ≤ now - e.2)))

/-- Proxies eligible for selection in `get_next_proxy` (line 88):
`[proxy for proxy in self.proxies if proxy not in self.rate_limited]`,
evaluated after expired entries were pruned. -/
def availableProxies (pm : ProxyManager) (now : Nat) : List String :=
  pm.proxies.filter (fun p => !(((pruneExpired pm.rateLimited now).map Prod.fst).contains p))

/-- Model of `random.choice l`: `none` exactly when `l` is empty (the code
raises `Exception("No available proxies")` there); otherwise the element at
`choice % l.length`, so every element is reachable for some `choice`. -/
def chooseOne (l : List String) (choice : Nat) : Option String :=
  l.get? (choice % l.length)

/-- Embedding of `ProxyManager.get_next_proxy` (lines 70-96): prune entries
rate-limited at least 900 seconds ago, persist the map if anything was
pruned, then pick a random proxy among those not in the (pruned) map;
`none` models the `No available proxies` exception. -/
def ProxyManager.get_next_proxy (pm : ProxyManager) (now : Nat) (choice : Nat) :
    Option String × ProxyManager :=
  let expired := pm.rateLimited.filter (fun e => decide (900 ≤ now - e.2))
  let pm1 : ProxyManager :=
    { pm with
      rateLimited := pruneExpired pm.rateLimited now,
      savedFile := if expired.isEmpty then pm.savedFile
                   else some (pruneExpired pm.rateLimited now) }
  (chooseOne (availableProxies pm now) choice, pm1)

/-- Embedding of `ProxyManager.mark_rate_limited` (lines 98-100): stamp the
current time for the proxy (dict assignment replaces any previous stamp) and
persist the map. -/
def ProxyManager.mark_rate_limited (pm : ProxyManager) (proxy : String) (now : Nat) :
    ProxyManager :=
  let rl := (proxy, now) :: pm.rateLimited.filter (fun e => !(e.1 == proxy))
  { pm with rateLimited := rl, savedFile := some rl }

/-- Embedding of `ProxyManager.clear_rate_limits` (lines 102-106): empty the
map and delete the persisted file. -/
def ProxyManager.clear_rate_limits (pm : ProxyManager) : ProxyManager :=
  { pm with rateLimited := [], savedFile := none }

/-! ### hedgeye_new_scraper.py: AccountManager -/

/-- State of `AccountManager` (lines 109-152). `rateLimited` mirrors
`self.rate_limited : Set[str]` (note: a set of emails with *no timestamps*),
`currentlyRunning` mirrors `self.currently_running : Set[str]`, `savedFile`
mirrors the JSON document at `RATE_LIMIT_ACCOUNTS_FILE`. -/
structure AccountManager where
  accounts : List (String × String)
  rateLimited : List String
  currentlyRunning : List String
  savedFile : Option (List String)
deriving DecidableEq, Repr

/-- Accounts eligible in `get_available_accounts` (lines 128-133): those whose
email is neither rate-limited nor currently running. -/
def availableAccounts (am : AccountManager) : List (String × String) :=
  am.accounts.filter
    (fun a => !(am.rateLimited.contains a.1) && !(am.currentlyRunning.contains a.1))

/-- Constraints satisfied by every possible outcome of `random.sample l k`:
each selected element is drawn from `l`, and a selection from an
email-duplicate-free list is email-duplicate-free (sampling is without
replacement, at distinct positions). -/
def SampleSpec (f : List (String × String) → Nat → List (String × String)) : Prop :=
  ∀ l k, (∀ x ∈ f l k, x ∈ l) ∧
    ((l.map Prod.fst).Nodup → ((f l k).map Prod.fst).Nodup)

/-- Embedding of `AccountManager.get_available_accounts` (lines 126-136), one
critical section of `self.lock`: filter out rate-limited and running
accounts, sample `min count len(available)` of them, and mark the selection
as currently running.  `sample` is the `random.sample` oracle. -/
def AccountManager.get_available_accounts
    (sample : List (String × String) → Nat → List (String × String))
    (am : AccountManager) (count : Nat) :
    List (String × String) × AccountManager :=
  let available := availableAccounts am
  let selected := sample available (min count available.length)
  (selected,
   { am with currentlyRunning := am.currentlyRunning ++ selected.map Prod.fst })

/-- Embedding of `AccountManager.release_account` (lines 138-141): remove the
email from the currently-running set. -/
def AccountManager.release_account (am : AccountManager) (email : String) :
    AccountManager :=
  { am with currentlyRunning := am.currentlyRunning.filter (fun e => !(e == email)) }

/-- Embedding of `AccountManager.mark_rate_limited` (lines 143-145): add the
email to the rate-limited set (no timestamp is recorded) and persist it. -/
def AccountManager.mark_rate_limited (am : AccountManager) (email : String) :
    AccountManager :=
  let rl := if am.rateLimited.contains email then am.rateLimited
            else email :: am.rateLimited
  { am with rateLimited := rl, savedFile := some rl }

/-- Embedding of `AccountManager.clear_rate_limits` (lines 147-152): empty
both sets and delete the persisted file. -/
def AccountManager.clear_rate_limits (am : AccountManager) : AccountManager :=
  { am with rateLimited := [], currentlyRunning := [], savedFile := none }

/-! ### hedgeye_new_scraper.py: alert processing (`process_account`, lines 364-473) -/

/-- Fields of the dict returned by `fetch_alert_details` that the dedup and
dispatch logic uses (title and price; timestamps are carried separately). -/
structure AlertDetails where
  title : String
  price : String
deriving DecidableEq, Repr

/-- Decoded content of `LAST_ALERT_FILE` (written at lines 444-453): title,
price and created-at of the last dispatched alert. -/
structure LastAlert where
  title : String
  price : String
  createdAt : String
deriving DecidableEq, Repr

/-- Python `s.lower()` / substring test `sub in s`, on character lists:
`leadsWith hay nd` holds when `nd` sits at the front of `hay`. -/
def leadsWith : List Char → List Char → Bool
  | _, [] => true
  | [], _ :: _ => false
  | c :: t, d :: u => c == d && leadsWith t u

/-- Python's `sub in hay` substring test. -/
def containsSub : List Char → List Char → Bool
  | [], nd => nd.isEmpty
  | c :: t, nd => leadsWith (c :: t) nd || containsSub t nd

/-- Signal classification from `process_account` (lines 406-414):
`"Buy" if "buy" in title.lower() else ("Sell" if "sell" in title.lower()
else "None")`. -/
def signalTypeH (title : String) : String :=
  if containsSub title.toLower.data "buy".data then "Buy"
  else if containsSub title.toLower.data "sell".data then "Sell"
  else "None"

/-- Character class `\w` of Python `re` (ASCII): letters, digits, underscore. -/
def isWordChar (c : Char) : Bool := c.isAlpha || c.isDigit || c == '_'

/-- Character class `[A-Z]`. -/
def isUpperAZ (c : Char) : Bool := c.isUpper

/-- Character class `\s` of Python `re` (ASCII). -/
def isSpaceRe (c : Char) : Bool :=
  c == ' ' || c == '\t' || c == '\n' || c == '\r' || c == '\u000B' || c == '\u000C'

/-- The lookahead `(?=\s*\$)` of the ticker regex: zero or more whitespace
characters followed by a dollar sign. -/
def dollarLA : List Char → Bool
  | [] => false
  | c :: rest => if c == '$' then true else if isSpaceRe c then dollarLA rest else false

/-- Maximal run of `[A-Z]` characters at the front of the list, and the rest. -/
def upperRun : List Char → List Char × List Char
  | [] => ([], [])
  | c :: rest =>
    if isUpperAZ c then
      let p := upperRun rest
      (c :: p.1, p.2)
    else ([], c :: rest)

/-- Attempt of the regex `\b([A-Z]{1,5})\b(?=\s*\$)` at the current position
(the `\b` *before* the match is the caller's duty).  `[A-Z]{1,5}` with a
trailing `\b` forces the match to be the entire maximal `[A-Z]` run here:
a shorter greedy backtrack would be followed by a further uppercase (word)
character and fail the trailing `\b`, and a run longer than 5 cannot shrink
for the same reason.  So: take the maximal uppercase run, require length
1..5, a non-word (or absent) successor character, and the `\s*\$` lookahead. -/
def matchTickerAt (s : List Char) : Option (List Char) :=
  let u := (upperRun s).1
  let r := (upperRun s).2
  if decide (1 ≤ u.length) && decide (u.length ≤ 5)
      && (match r with | [] => true | c :: _ => !isWordChar c)
      && dollarLA r
  then some u else none

/-- Embedding of `re.search` for the ticker regex: try each position from the
left; a position qualifies only if the previous character is a non-word
character (the leading `\b`; `prevW` records the word-ness of the previous
character, `false` at the start of the string). -/
def searchTicker : Bool → List Char → Option (List Char)
  | _, [] => none
  | prevW, c :: rest =>
    if prevW then searchTicker (isWordChar c) rest
    else
      match matchTickerAt (c :: rest) with
      | some u => some u
      | none => searchTicker (isWordChar c) rest

/-- Ticker extraction from `process_account` (lines 416-419):
`re.search(r"\b([A-Z]{1,5})\b(?=\s*\$)", title)` with `group(0)` on a match
and `"-"` otherwise. -/
def extractTickerH (title : String) : String :=
  match searchTicker false title.data with
  | some u => String.mk u
  | none => "-"

/-- Core of the dedup decision and state update in `process_account`
(lines 399-453), executed under `last_alert_lock`: the fetched alert is
dispatched iff no last-alert file exists or the fetched *title* differs from
the stored title (`if not last_alert or alert_details["title"] !=
last_alert.get("title")`); on dispatch the stored record is replaced by the
fetched title, price and created-at.  Returns (dispatched?, new stored
record). -/
def processAlert (last : Option LastAlert) (a : AlertDetails) (createdAt : String) :
    Bool × Option LastAlert :=
  match last with
  | none => (true, some ⟨a.title, a.price, createdAt⟩)
  | some l =>
    if a.title ≠ l.title then (true, some ⟨a.title, a.price, createdAt⟩)
    else (false, some l)

/-- Observable notifier/persistence events of one `process_account` dedup
critical section, in program order (lines 421-453): websocket send, telegram
send, then the write of `LAST_ALERT_FILE`. -/
inductive HEv where
  | sendWs (signal ticker : String)
  | sendTelegram (title price : String)
  | commitAlert (rec : LastAlert)
deriving DecidableEq, Repr

/-- Event trace of one dedup critical section of `process_account`: nothing
when the alert is not novel; otherwise the two notifier sends followed by
the durable commit. -/
def alertEvents (last : Option LastAlert) (a : AlertDetails) (createdAt : String) :
    List HEv :=
  if (processAlert last a createdAt).1 then
    [HEv.sendWs (signalTypeH a.title) (extractTickerH a.title),
     HEv.sendTelegram a.title a.price,
     HEv.commitAlert ⟨a.title, a.price, createdAt⟩]
  else []

/-! ### bearcave_scraper.py -/

/-- Fields of a fetched substack post that the dedup logic inspects.
`canonicalUrl` models `post.get("canonical_url")`; the empty string stands
for a missing or empty value (both are falsy in the Python guard). -/
structure BPost where
  canonicalUrl : String
  title : String
deriving DecidableEq, Repr

/-- Embedding of the new-post filter in `run_scraper`
(`bearcave_scraper.py` lines 244-249):
`[post for post in posts if post.get("canonical_url") and
post["canonical_url"] not in processed_urls]`. -/
def detectNewPosts (processed : List String) (posts : List BPost) : List BPost :=
  posts.filter
    (fun p => !(p.canonicalUrl == "") && !(processed.contains p.canonicalUrl))

/-- Python `set.add` on a list-modelled set: append only when absent. -/
def insertUrl (s : List String) (u : String) : List String :=
  if s.contains u then s else s ++ [u]

/-- The processed-URL set after the dispatch loop (lines 254-258), which does
`processed_urls.add(post["canonical_url"])` for each new post. -/
def commitUrls (processed : List String) (newPosts : List BPost) : List String :=
  newPosts.foldl (fun s p => insertUrl s p.canonicalUrl) processed

/-- Observable notifier/persistence events of one bearcave polling iteration. -/
inductive BEv where
  | send (url : String)
  | commit (saved : List String)
deriving DecidableEq, Repr

/-- Event trace of one bearcave polling iteration (lines 244-262): one
telegram send per new post, in fetch order, then — only when there was at
least one new post — a single `save_processed_urls` commit of the updated
set. -/
def batchEvents (processed : List String) (posts : List BPost) : List BEv :=
  let np := detectNewPosts processed posts
  if np.isEmpty then []
  else np.map (fun p => BEv.send p.canonicalUrl) ++ [BEv.commit (commitUrls processed np)]

/-- Posts that a restart re-dispatches when the process crashed after the
sends of an iteration but before its `save_processed_urls` commit: the
persisted set is still `processed`, so re-fetching the same feed detects the
same posts again. -/
def crashRedispatch (processed : List String) (posts : List BPost) : List BPost :=
  detectNewPosts processed posts

/-- Modelled from the spec: `sleep_until_market_open` /
`get_next_market_times` live in `utils/time_utils.py`, which is not part of
the sources; per the spec the controller "suspends until the window opens",
so the sampled clock values of the polling loop all lie at or after
`opensAt` — that is taken as a hypothesis on the `times` argument of
`gatedFetchTimes`.  The loop gate itself *is* in the sources
(`bearcave_scraper.py` lines 231-242): each iteration samples the clock,
breaks when `current_time > market_close_time`, and otherwise issues a
fetch.  `gatedFetchTimes close times` returns the clock values at which a
fetch is issued. -/
def gatedFetchTimes (close : Nat) : List Nat → List Nat
  | [] => []
  | t :: rest => if close < t then [] else t :: gatedFetchTimes close rest

/-! ### ibd_api_scraper.py -/

/-- Fields of a trade object that the dedup logic inspects; `id` models
`str(trade["id"])`. -/
structure Trade where
  id : String
  stockSymbol : String
deriving DecidableEq, Repr

/-- Embedding of the new-trade filter in `run_scraper`
(`ibd_api_scraper.py` lines 192-196):
`[trade for trade in trades_data["trades"] if str(trade["id"]) not in
processed_trades]`. -/
def detectNewTrades (processed : List String) (trades : List Trade) : List Trade :=
  trades.filter (fun t => !(processed.contains t.id))

/-- The processed-trade set after the dispatch loop (lines 199-201). -/
def commitTrades (processed : List String) (newTrades : List Trade) : List String :=
  newTrades.foldl (fun s t => if s.contains t.id then s else s ++ [t.id]) processed

/-- Embedding of `fetch_trades` (lines 93-134), restricted to which bearer
token each HTTP attempt carries.  `statuses` is the oracle of HTTP status
codes the server answers with (one per attempt; an empty oracle means the
attempt failed without a scripted status), `fresh` is the oracle of tokens
`get_new_token` mints, and `file` is the content of `TOKENS_FILE`
(`save_token` overwrites it on every refresh).  On a 426 the function gets a
new token, saves it, and retries itself with that token; on anything else it
stops.  Returns the tokens used by the successive attempts and the final
token file. -/
def fetchTradesTokens : String → List Nat → List String → Option String →
    List String × Option String
  | token, [], _, file => ([token], file)
  | token, s :: rest, fresh, file =>
    if s == 426 then
      match fresh with
      | [] => ([token], file)
      | t :: fr =>
        let r := fetchTradesTokens t rest fr (some t)
        (token :: r.1, r.2)
    else ([token], file)

/-- Embedding of the polling loop of `run_scraper` (lines 179-206), restricted
to token flow: `token` is bound once before the loop (line 174) and the loop
body calls `fetch_trades(session, creds, token)` with that same binding on
every iteration; the token file threads through.  Returns, per iteration,
the list of tokens attempted, plus the final token file. -/
def runIterTokens (token0 : String) :
    List (List Nat × List String) → Option String →
    List (List String) × Option String
  | [], file => ([], file)
  | o :: rest, file =>
    let r := fetchTradesTokens token0 o.1 o.2 file
    let rr := runIterTokens token0 rest r.2
    (r.1 :: rr.1, rr.2)

/-! ### Persistence and daily reset (shared) -/

/-- Observable on-disk states during a persistence write as all three
scrapers perform it — `with open(path, "w") as f: json.dump(new, f)`:
before the `open` the file holds the old document, `open(path, "w")`
truncates it to empty, and only then is the new document written.  An
atomic temp-write-then-replace would never expose the middle state. -/
def pythonWriteTrace (old new : String) : List String := [old, "", new]

/-- A write is atomic when every on-disk state observable during it is either
the old or the new document. -/
def atomicOk (trace : List String) (old new : String) : Prop :=
  ∀ s ∈ trace, s = old ∨ s = new

/-- Embedding of `initialize_accounts` (`hedgeye_new_scraper.py` lines
278-301), restricted to its roster effect: accounts whose validation
succeeds (oracle `authOk`) form the valid-account roster; the rest are
disqualified for the run. -/
def initAccountsRoster (accounts : List (String × String)) (authOk : String → Bool) :
    List (String × String) :=
  accounts.filter (fun a => authOk a.1)

/-- Top-level state of the hedgeye scraper as far as the daily reset is
concerned: the full credential list, the two managers (whose
`AccountManager.accounts` roster was fixed by `initialize_accounts` at
startup, line 558). -/
structure HState where
  allAccounts : List (String × String)
  pm : ProxyManager
  am : AccountManager
deriving DecidableEq, Repr

/-- Accounts of the credential file that are disqualified (not on the
manager's valid-account roster). -/
def disqualified (s : HState) : List (String × String) :=
  s.allAccounts.filter (fun a => !((s.am.accounts.map Prod.fst).contains a.1))

/-- Embedding of the end-of-day reset in `main` (lines 584-586): exactly
`proxy_manager.clear_rate_limits()` and `account_manager.clear_rate_limits()`
are invoked; nothing re-runs `initialize_accounts`. -/
def dailyCloseReset (s : HState) : HState :=
  { s with pm := s.pm.clear_rate_limits, am := s.am.clear_rate_limits }

/-! ### Concrete instances used by witnesses and counterexamples -/

/-- A concrete deterministic instance of the `random.sample` oracle: take the
first `k` elements. -/
def sampleTake (l : List (String × String)) (k : Nat) : List (String × String) :=
  l.take k

/-- An account manager holding one valid account and nothing else. -/
def amEx : AccountManager := ⟨[("a", "pw")], [], [], none⟩

/-- An account manager holding two valid accounts and nothing else. -/
def amEx2 : AccountManager := ⟨[("a", "pwa"), ("b", "pwb")], [], [], none⟩

/-- A proxy manager holding a single proxy and an empty rate-limit map. -/
def pmEx : ProxyManager := ⟨["p1"], [], none⟩

/-- A proxy manager whose single proxy was marked rate-limited at time 0. -/
def pmExRL : ProxyManager := ⟨["p1"], [("p1", 0)], some [("p1", 0)]⟩

/-- The fetched-post list of the spec's set-variant example: identifiers
"a", "b", "c". -/
def postsEx : List BPost := [⟨"a", "ta"⟩, ⟨"b", "tb"⟩, ⟨"c", "tc"⟩]

/-- Startup state whose credential file lists two accounts of which only
"good" passed validation; "bad" is disqualified for the run. -/
def hStateEx : HState :=
  ⟨[("good", "p"), ("bad", "q")],
   ⟨["p1"], [("p1", 5)], some [("p1", 5)]⟩,
   ⟨initAccountsRoster [("good", "p"), ("bad", "q")] (fun e => e == "good"),
    ["good"], [], some ["good"]⟩⟩

/-! ### Claim-level predicates for signal and ticker classification -/

/-- Proposition: `sub` occurs as a contiguous substring of `hay`
(Python's `sub in hay`). -/
def ContainsSub (hay sub : List Char) : Prop :=
  ∃ pre post, hay = pre ++ sub ++ post

/-- The head of the list, if any, is a non-word character (the trailing `\b`
of the ticker regex; an empty list also satisfies it). -/
def NonWordHead : List Char → Prop
  | [] => True
  | c :: _ => isWordChar c = false

/-- Declarative description of a ticker-regex match body: a non-empty word of
at most five uppercase letters, followed by a non-word character (or
nothing) and by the `\s*\$` lookahead. -/
def MatchProps (w post : List Char) : Prop :=
  w ≠ [] ∧ w.length ≤ 5 ∧ (∀ c ∈ w, isUpperAZ c = true)
  ∧ NonWordHead post ∧ dollarLA post = true

/-- The leading `\b` relative to the scan flag `b` (word-ness of the character
just before the remaining input): satisfied when the match site is preceded
by a non-word character, or by nothing at all (`b = false` at the start of
the string). -/
def BoundaryBefore (b : Bool) (pre : List Char) : Prop :=
  match pre.getLast? with
  | none => b = false
  | some c => isWordChar c = false

/-- Proposition: `s` decomposes as `pre ++ w ++ post` where `w` is a 1-5
letter uppercase word (preceded by nothing or a non-word character, followed
by nothing or a non-word character) with a `\s*\$` lookahead after it —
i.e. `w` is a ticker occurrence at offset `pre.length` of `s`. -/
def TickerTokenAt (s pre w post : List Char) : Prop :=
  s = pre ++ w ++ post
  ∧ (pre = [] ∨ ∃ c, pre.getLast? = some c ∧ isWordChar c = false)
  ∧ MatchProps w post

/-! ## Theorems -/

/-- C1 counterexample: with stored fingerprint ("Buy AAPL", "150") and
fetched alert ("Buy AAPL", "149") the fingerprint tuple differs (price
changed), yet `process_account` does not dispatch — the claimed
"novel iff (title, price) differs" equivalence is false at this input,
because line 405 compares only the title. -/
theorem hedgeye_dedup_ignores_price_cex :
    ¬ (((processAlert (some ⟨"Buy AAPL", "150", "t0"⟩) ⟨"Buy AAPL", "149"⟩ "t1").1 = true) ↔
       ((some (⟨"Buy AAPL", "150", "t0"⟩ : LastAlert) = none) ∨
        ¬((("Buy AAPL" : String), ("149" : String)) = (("Buy AAPL" : String), ("150" : String))))) := by
  decide

/-- C1 (amended): a fetched hedgeye alert is dispatched as novel iff no
fingerprint is stored yet or the fetched *title* differs from the stored
title — the price is not consulted; on dispatch the stored record is
replaced by the fetched title, price and created-at, and the notifier
events fire exactly when the alert is novel. -/
theorem hedgeye_dedup_title_only :
    ∀ (last : Option LastAlert) (a : AlertDetails) (c : String),
      ((processAlert last a c).1 = true ↔
        (last = none ∨ ∃ l, last = some l ∧ a.title ≠ l.title))
      ∧ (processAlert last a c).2 =
          (if (processAlert last a c).1 then some ⟨a.title, a.price, c⟩ else last)
      ∧ (alertEvents last a c ≠ [] ↔ (processAlert last a c).1 = true) := by
  intro last a c
  match last with
  | none => simp [processAlert, alertEvents]
  | some l =>
    by_cases h : a.title = l.title
    · simp [processAlert, alertEvents, h]
    · simp [processAlert, alertEvents, h]

/-- C7 counterexample: at the concrete startup state `hStateEx` (account
"bad" failed validation and is disqualified for the run) the end-of-day
reset does clear both rate-limit maps and delete both files, but the
permanent-disqualification roster is *not* cleared — "bad" stays off the
valid-account roster — so the claimed conjunction is false. -/
theorem daily_reset_roster_cex :
    ¬ ((dailyCloseReset hStateEx).pm.rateLimited = []
       ∧ (dailyCloseReset hStateEx).pm.savedFile = none
       ∧ (dailyCloseReset hStateEx).am.rateLimited = []
       ∧ (dailyCloseReset hStateEx).am.savedFile = none
       ∧ disqualified (dailyCloseReset hStateEx) = []) := by
  decide

/-- C7 (amended): the end-of-day reset empties the proxy rate-limit map, the
account rate-limit set and the currently-running set, deletes both persisted
rate-limit files, and leaves the valid-account roster — and hence the set of
permanently disqualified accounts — unchanged. -/
theorem daily_reset_clears_rate_limits :
    ∀ s : HState,
      (dailyCloseReset s).pm.rateLimited = []
      ∧ (dailyCloseReset s).pm.savedFile = none
      ∧ (dailyCloseReset s).am.rateLimited = []
      ∧ (dailyCloseReset s).am.currentlyRunning = []
      ∧ (dailyCloseReset s).am.savedFile = none
      ∧ (dailyCloseReset s).am.accounts = s.am.accounts
      ∧ disqualified (dailyCloseReset s) = disqualified s := by
  intro s
  exact ⟨rfl, rfl, rfl, rfl, rfl, rfl, rfl⟩

/-- C8 counterexample: the scrapers persist with
`with open(path, "w") as f: json.dump(new, f)`, whose write trace exposes
the truncated (empty) file between the old and the new document — the write
is not atomic. -/
theorem nonatomic_write_cex :
    ¬ atomicOk (pythonWriteTrace "old-document" "new-document")
        "old-document" "new-document" := by
  intro h
  rcases h "" (by simp [pythonWriteTrace]) with h' | h' <;> exact absurd h' (by decide)

/-- C8 (amended): the rate-limit state is durably written after every
mutation — `mark_rate_limited` (both managers) leaves the persisted file
equal to the new map, and `get_next_proxy` either leaves the map unchanged
or persists the pruned map — but each such write is a plain
truncate-then-rewrite whose trace passes through an empty file, not an
atomic temp-write-and-replace. -/
theorem durable_write_after_mutation :
    (∀ (pm : ProxyManager) (p : String) (now : Nat),
      (pm.mark_rate_limited p now).savedFile = some ((pm.mark_rate_limited p now).rateLimited))
    ∧ (∀ (am : AccountManager) (e : String),
      (am.mark_rate_limited e).savedFile = some ((am.mark_rate_limited e).rateLimited))
    ∧ (∀ (pm : ProxyManager) (now choice : Nat),
      (pm.get_next_proxy now choice).2.rateLimited = pm.rateLimited
      ∨ (pm.get_next_proxy now choice).2.savedFile
          = some ((pm.get_next_proxy now choice).2.rateLimited))
    ∧ (∀ old new : String,
      "" ∈ pythonWriteTrace old new ∧ pythonWriteTrace old new ≠ [old, new]) := by
  refine ⟨fun pm p now => rfl, fun am e => rfl, fun pm now choice => ?_, fun old new => ?_⟩
  · by_cases h : (pm.rateLimited.filter (fun e => decide (900 ≤ now - e.2))).isEmpty
    · left
      have h' : ∀ e ∈ pm.rateLimited, ¬(decide (900 ≤ now - e.2) = true) := by
        intro e he
        have := List.isEmpty_iff.mp h
        intro hd
        exact absurd (this ▸ List.mem_filter.mpr ⟨he, hd⟩) (List.not_mem_nil e)
      show pruneExpired pm.rateLimited now = pm.rateLimited
      unfold pruneExpired
      apply List.filter_eq_self.mpr
      intro e he
      simp only [Bool.not_eq_true'] at h' ⊢
      exact Bool.not_eq_true _ ▸ (by simpa using h' e he)
    · right
      simp [ProxyManager.get_next_proxy, h]
  · constructor
    · simp [pythonWriteTrace]
    · simp [pythonWriteTrace]

/-- Helper: `chooseOne` only returns elements of its list. -/
theorem chooseOne_mem {l : List String} {c : Nat} {x : String}
    (h : chooseOne l c = some x) : x ∈ l :=
  List.get?_mem h

/-- Helper: in a map with duplicate-free keys, a key determines its value. -/
theorem nodup_keys_val_eq {l : List (String × Nat)}
    (h : (l.map Prod.fst).Nodup) {p : String} {t t' : Nat}
    (h1 : (p, t) ∈ l) (h2 : (p, t') ∈ l) : t = t' := by
  induction l with
  | nil => cases h1
  | cons a l ih =>
    simp only [List.map_cons, List.nodup_cons] at h
    rcases List.mem_cons.mp h1 with h1e | h1'
    · rcases List.mem_cons.mp h2 with h2e | h2'
      · rw [← h1e] at h2e
        exact (congrArg Prod.snd h2e).symm
      · have hm : p ∈ l.map Prod.fst := List.mem_map.mpr ⟨(p, t'), h2', rfl⟩
        rw [← h1e] at h
        exact absurd hm h.1
    · rcases List.mem_cons.mp h2 with h2e | h2'
      · have hm : p ∈ l.map Prod.fst := List.mem_map.mpr ⟨(p, t), h1', rfl⟩
        rw [← h2e] at h
        exact absurd hm h.1
      · exact ih h.2 h1' h2'

/-- Helper: `sampleTake` is a legitimate outcome of `random.sample`. -/
theorem sampleTake_spec : SampleSpec sampleTake := by
  intro l k
  constructor
  · intro x hx
    exact List.mem_of_mem_take hx
  · intro hnd
    have hsub : List.Sublist ((sampleTake l k).map Prod.fst) (l.map Prod.fst) :=
      (List.take_sublist k l).map Prod.fst
    exact List.Nodup.sublist hsub hnd

/-- C2 counterexample: account rate-limit exclusions never expire.  The
`AccountManager` records no timestamp when marking (its `rate_limited` is a
plain set), and `get_available_accounts` takes no notion of time at all, so
an acquire at or after T+15 minutes behaves exactly like this one: the
marked account "a" is still excluded (the selection is empty), refuting
"any acquire call at or after T+15 minutes makes it eligible again". -/
theorem account_rate_limit_no_expiry_cex :
    (amEx.mark_rate_limited "a").rateLimited = ["a"]
    ∧ (AccountManager.get_available_accounts sampleTake (amEx.mark_rate_limited "a") 2).1 = []
    ∧ (AccountManager.get_available_accounts sampleTake (amEx.mark_rate_limited "a") 2).2.rateLimited
        = ["a"] := by
  decide

/-- C2 (amended): the 15-minute exclusion expiry holds for *proxies* only:
a proxy marked at `t` is excluded from every `get_next_proxy` call with
`now - t < 900` seconds, and a call with `now - t ≥ 900` prunes it from the
map, persists the pruned map, and puts the proxy back in the selection pool;
*accounts* marked rate-limited, by contrast, stay excluded from every
subsequent `get_available_accounts` call (there is no timestamp and no
expiry — only the end-of-day `clear_rate_limits` readmits them). -/
theorem rate_limit_expiry_split :
    (∀ (pm : ProxyManager) (now choice : Nat) (p : String) (t : Nat),
      (p, t) ∈ pm.rateLimited → now - t < 900 →
      (pm.get_next_proxy now choice).1 ≠ some p)
    ∧ (∀ (pm : ProxyManager) (now choice : Nat) (p : String) (t : Nat),
      (pm.rateLimited.map Prod.fst).Nodup → (p, t) ∈ pm.rateLimited → 900 ≤ now - t →
      p ∉ ((pm.get_next_proxy now choice).2.rateLimited.map Prod.fst)
      ∧ (p ∈ pm.proxies → p ∈ availableProxies pm now)
      ∧ (pm.get_next_proxy now choice).2.savedFile = some (pruneExpired pm.rateLimited now))
    ∧ (∀ (f : List (String × String) → Nat → List (String × String)),
      SampleSpec f → ∀ (am : AccountManager) (count : Nat) (email : String),
      email ∈ am.rateLimited →
      email ∉ ((AccountManager.get_available_accounts f am count).1.map Prod.fst)) := by
  refine ⟨?_, ?_, ?_⟩
  · intro pm now choice p t hin ht heq
    have hp : p ∈ availableProxies pm now := chooseOne_mem heq
    have hkeep : (p, t) ∈ pruneExpired pm.rateLimited now := by
      refine List.mem_filter.mpr ⟨hin, ?_⟩
      simp only [Bool.not_eq_true', decide_eq_false_iff_not]
      omega
    have hkey : p ∈ (pruneExpired pm.rateLimited now).map Prod.fst :=
      List.mem_map.mpr ⟨(p, t), hkeep, rfl⟩
    rcases List.mem_filter.mp hp with ⟨-, hcond⟩
    have hnot : p ∉ (pruneExpired pm.rateLimited now).map Prod.fst := by
      simpa using hcond
    exact hnot hkey
  · intro pm now choice p t hnd hin hexp
    have hgone : p ∉ (pruneExpired pm.rateLimited now).map Prod.fst := by
      intro hk
      rcases List.mem_map.mp hk with ⟨⟨q, t'⟩, hq, hqe⟩
      rcases List.mem_filter.mp hq with ⟨hq', hcond⟩
      simp only [Bool.not_eq_true', decide_eq_false_iff_not] at hcond
      cases hqe
      have := nodup_keys_val_eq hnd hin hq'
      omega
    refine ⟨hgone, ?_, ?_⟩
    · intro hpx
      refine List.mem_filter.mpr ⟨hpx, ?_⟩
      simpa using hgone
    · have hmem : (p, t) ∈ pm.rateLimited.filter (fun e => decide (900 ≤ now - e.2)) :=
        List.mem_filter.mpr ⟨hin, by simpa using hexp⟩
      have hne : (pm.rateLimited.filter (fun e => decide (900 ≤ now - e.2))).isEmpty = false := by
        rcases he : pm.rateLimited.filter (fun e => decide (900 ≤ now - e.2)) with _ | ⟨a, l⟩
        · rw [he] at hmem; cases hmem
        · rw [he]; rfl
      simp [ProxyManager.get_next_proxy, hne]
  · intro f hf am count email hmem hin
    rcases List.mem_map.mp hin with ⟨acc, hacc, hacce⟩
    have havail : acc ∈ availableAccounts am :=
      (hf (availableAccounts am) (min count (availableAccounts am).length)).1 acc hacc
    rcases List.mem_filter.mp havail with ⟨_, hcond⟩
    simp at hcond
    exact hcond.1 (hacce ▸ hmem)

/-- C2 witness: concrete discharge of each hypothesis of
`rate_limit_expiry_split` — the proxy marked at time 0 is excluded at
`now = 899` and back in the pool at `now = 900`, and a marked account is
absent from the next selection. -/
theorem rate_limit_expiry_split_witness :
    ((pmExRL.get_next_proxy 899 0).1 ≠ some "p1")
    ∧ ("p1" ∈ availableProxies pmExRL 900)
    ∧ ("a" ∉ ((AccountManager.get_available_accounts sampleTake
        (amEx.mark_rate_limited "a") 2).1.map Prod.fst)) :=
  ⟨rate_limit_expiry_split.1 pmExRL 899 0 "p1" 0 (by decide) (by decide),
   (rate_limit_expiry_split.2.1 pmExRL 900 0 "p1" 0 (by decide) (by decide) (by decide)).2.1
     (by decide),
   rate_limit_expiry_split.2.2 sampleTake sampleTake_spec
     (amEx.mark_rate_limited "a") 2 "a" (by decide)⟩

/-- C4 counterexample: proxies have no checkout tracking at all —
`get_next_proxy` neither records nor consults which proxies are in flight,
so two acquisitions with no release in between (as happens when
`process_accounts_continuously` pairs two accounts with proxies in one
round and the tasks run concurrently) can hand the *same* proxy to two
in-flight tasks. -/
theorem proxy_double_checkout_cex :
    (pmEx.get_next_proxy 0 0).1 = some "p1"
    ∧ ((pmEx.get_next_proxy 0 0).2.get_next_proxy 0 0).1 = some "p1" := by
  decide

/-- C4 (amended): *accounts* are never double-checked-out — inside the lock,
`get_available_accounts` selects only accounts outside `currently_running`
and immediately marks the selection as running, so two acquisitions with no
intervening release return email-disjoint selections, each itself
duplicate-free; when no account is available the caller receives an empty
list (not an error), and `get_next_proxy` signals exhaustion (the
`No available proxies` exception, modelled as `none`) when its pool is
empty — but proxies carry no in-flight tracking (see the counterexample). -/
theorem no_double_checkout_split :
    (∀ (f : List (String × String) → Nat → List (String × String)),
      SampleSpec f → ∀ (am : AccountManager) (c1 c2 : Nat),
      (am.accounts.map Prod.fst).Nodup →
      (∀ e, e ∈ ((AccountManager.get_available_accounts f am c1).1.map Prod.fst) →
        e ∉ ((AccountManager.get_available_accounts f
              (AccountManager.get_available_accounts f am c1).2 c2).1.map Prod.fst))
      ∧ ((AccountManager.get_available_accounts f am c1).1.map Prod.fst).Nodup
      ∧ (availableAccounts am = [] → (AccountManager.get_available_accounts f am c1).1 = []))
    ∧ (∀ (pm : ProxyManager) (now choice : Nat),
      availableProxies pm now = [] → (pm.get_next_proxy now choice).1 = none) := by
  constructor
  · intro f hf am c1 c2 hnd
    refine ⟨?_, ?_, ?_⟩
    · intro e he1 he2
      rcases List.mem_map.mp he2 with ⟨acc, hacc, hacce⟩
      have havail := (hf (availableAccounts
        (AccountManager.get_available_accounts f am c1).2) _).1 acc hacc
      rcases List.mem_filter.mp havail with ⟨-, hcond⟩
      simp at hcond
      refine hcond.2 ?_
      show acc.1 ∈ (AccountManager.get_available_accounts f am c1).2.currentlyRunning
      have : (AccountManager.get_available_accounts f am c1).2.currentlyRunning
          = am.currentlyRunning
            ++ (AccountManager.get_available_accounts f am c1).1.map Prod.fst := rfl
      rw [this]
      exact List.mem_append.mpr (Or.inr (hacce ▸ he1))
    · have hsubnd : ((availableAccounts am).map Prod.fst).Nodup := by
        have hsub : List.Sublist ((availableAccounts am).map Prod.fst)
            (am.accounts.map Prod.fst) := (List.filter_sublist _).map Prod.fst
        exact List.Nodup.sublist hsub hnd
      exact (hf (availableAccounts am) _).2 hsubnd
    · intro hemp
      show f (availableAccounts am) (min c1 (availableAccounts am).length) = []
      rw [hemp]
      have hsub := (hf ([] : List (String × String))
        (min c1 ([] : List (String × String)).length)).1
      exact List.eq_nil_iff_forall_not_mem.mpr
        (fun x hx => List.not_mem_nil x (hsub x hx))
  · intro pm now choice hemp
    show chooseOne (availableProxies pm now) choice = none
    rw [hemp]
    rfl

/-- C4 witness: concrete discharge of the hypotheses of
`no_double_checkout_split` with the two-account manager and an empty proxy
pool. -/
theorem no_double_checkout_split_witness :
    ("a" ∈ ((AccountManager.get_available_accounts sampleTake amEx2 1).1.map Prod.fst) →
      "a" ∉ ((AccountManager.get_available_accounts sampleTake
            (AccountManager.get_available_accounts sampleTake amEx2 1).2 1).1.map Prod.fst))
    ∧ ((ProxyManager.get_next_proxy ⟨[], [], none⟩ 0 0).1 = none) :=
  ⟨(no_double_checkout_split.1 sampleTake sampleTake_spec amEx2 1 1 (by decide)).1 "a",
   no_double_checkout_split.2 ⟨[], [], none⟩ 0 0 (by decide)⟩

/-- C6 counterexample: with `closesAt = 100` and a loop iteration sampling
the clock at exactly 100, the gate (`if current_time > market_close_time:
break`) does not fire and a fetch *is* issued at time 100 — which lies
outside the claimed half-open window `[opensAt, closesAt)` = `[0, 100)`. -/
theorem window_gate_close_boundary_cex :
    gatedFetchTimes 100 [100] = [100] ∧ ¬((100 : Nat) < 100) := by
  decide

/-- C6 (amended): given that the loop only starts after suspending until the
window opens (so every sampled clock value is at or after `opensAt`), every
fetch is issued at a time in the *closed* interval `[opensAt, closesAt]`:
the gate breaks on the first sample strictly greater than `closesAt`, and a
sample at exactly `closesAt` still fetches. -/
theorem window_gate_closed_interval :
    ∀ (opensAt close : Nat) (times : List Nat),
      (∀ t ∈ times, opensAt ≤ t) →
      ∀ u ∈ gatedFetchTimes close times, opensAt ≤ u ∧ u ≤ close := by
  intro opensAt close times
  induction times with
  | nil => intro _ u hu; cases hu
  | cons t rest ih =>
    intro hall u hu
    rw [gatedFetchTimes] at hu
    by_cases hc : close < t
    · simp [hc] at hu
    · simp [hc] at hu
      rcases hu with rfl | hu'
      · exact ⟨hall u (List.mem_cons_self u rest), by omega⟩
      · exact ih (fun s hs => hall s (List.mem_cons_of_mem t hs)) u hu'

/-- C6 witness: the window `[3, 10]` with clock samples `[5, 11]`: the fetch
issued at 5 lies within the closed window. -/
theorem window_gate_closed_interval_witness : (3 : Nat) ≤ 5 ∧ (5 : Nat) ≤ 10 :=
  window_gate_closed_interval 3 10 [5, 11] (by decide) 5 (by decide)

/-- Helper: the first attempt of every `fetch_trades` call uses exactly the
token the caller passed. -/
theorem fetchTradesTokens_head :
    ∀ (token : String) (statuses : List Nat) (fresh : List String) (file : Option String),
      (fetchTradesTokens token statuses fresh file).1.head? = some token := by
  intro token statuses fresh file
  match statuses with
  | [] => rfl
  | s :: rest =>
    by_cases h : (s == 426) = true
    · match fresh with
      | [] => simp [fetchTradesTokens, h]
      | t :: fr => simp [fetchTradesTokens, h]
    · simp [fetchTradesTokens, h]

/-- C9: in the IBD scraper, a 426 response makes `fetch_trades` mint a new
token, save it, and retry itself with that new token; but `run_scraper`'s
`token` binding is never reassigned, so the first attempt of *every* polling
iteration — including all iterations after a refresh updated the token
file — carries the original startup token. -/
theorem ibd_token_not_propagated :
    (∀ (token0 : String) (oracles : List (List Nat × List String)) (file0 : Option String),
      ∀ a ∈ (runIterTokens token0 oracles file0).1, a.head? = some token0)
    ∧ (∀ (token : String) (rest : List Nat) (t : String) (fr : List String)
        (file : Option String),
      fetchTradesTokens token (426 :: rest) (t :: fr) file
        = (token :: (fetchTradesTokens t rest fr (some t)).1,
           (fetchTradesTokens t rest fr (some t)).2)) := by
  constructor
  · intro token0 oracles
    induction oracles with
    | nil => intro file0 a ha; cases ha
    | cons o rest ih =>
      intro file0 a ha
      rw [runIterTokens] at ha
      rcases List.mem_cons.mp ha with rfl | ha'
      · exact fetchTradesTokens_head token0 o.1 o.2 file0
      · exact ih _ a ha'
  · intro token rest t fr file
    rfl

/-- C9 witness: oracle script where iteration 1 answers 426 (forcing a
refresh to "tok1", which is saved) and iteration 2 answers 200 — the second
iteration's attempt list is `["tok0"]`, whose head is the startup token. -/
theorem ibd_token_not_propagated_witness :
    (["tok0"] : List String).head? = some "tok0" :=
  ibd_token_not_propagated.1 "tok0" [([426, 200], ["tok1"]), ([200], [])]
    (some "tok0") ["tok0"] (by decide)

/-- Helper: membership in `insertUrl` (Python `set.add`). -/
theorem mem_insertUrl {S : List String} {u x : String} :
    x ∈ insertUrl S u ↔ x ∈ S ∨ x = u := by
  unfold insertUrl
  by_cases h : S.contains u
  · simp only [h, if_true]
    constructor
    · exact Or.inl
    · rintro (hx | rfl)
      · exact hx
      · exact List.elem_iff.mp h
  · have h' : u ∉ S := fun hm => h (List.elem_iff.mpr hm)
    simp [h, h']

/-- Helper: membership in a fold of `set.add` insertions. -/
theorem mem_foldl_insertUrl {α : Type} (f : α → String) :
    ∀ (l : List α) (S : List String) (x : String),
      x ∈ l.foldl (fun s a => insertUrl s (f a)) S ↔ x ∈ S ∨ x ∈ l.map f := by
  intro l
  induction l with
  | nil => simp
  | cons a l ih =>
    intro S x
    rw [List.foldl_cons, List.map_cons, ih, mem_insertUrl, List.mem_cons]
    tauto

/-- C3: set-variant change detection in both set-variant scrapers.  For the
bearcave feed (given every fetched post has a canonical URL), detection
yields exactly the posts whose URL is absent from the seen set, as a
sublist of the fetch (so in fetch order), without touching the set (the
detector is a pure read of `S`); committing after dispatch yields exactly
`S` united with the dispatched identifiers.  The IBD feed behaves the same
on trade ids, unconditionally. -/
theorem detect_set_variant :
    (∀ (S : List String) (posts : List BPost),
      (∀ p ∈ posts, p.canonicalUrl ≠ "") →
      List.Sublist (detectNewPosts S posts) posts
      ∧ (∀ p, p ∈ detectNewPosts S posts ↔ p ∈ posts ∧ p.canonicalUrl ∉ S)
      ∧ (∀ x, x ∈ commitUrls S (detectNewPosts S posts)
          ↔ x ∈ S ∨ x ∈ (detectNewPosts S posts).map (fun p => p.canonicalUrl)))
    ∧ (∀ (S : List String) (trades : List Trade),
      List.Sublist (detectNewTrades S trades) trades
      ∧ (∀ t, t ∈ detectNewTrades S trades ↔ t ∈ trades ∧ t.id ∉ S)
      ∧ (∀ x, x ∈ commitTrades S (detectNewTrades S trades)
          ↔ x ∈ S ∨ x ∈ (detectNewTrades S trades).map Trade.id)) := by
  constructor
  · intro S posts hurl
    refine ⟨List.filter_sublist _, ?_, ?_⟩
    · intro p
      rw [detectNewPosts, List.mem_filter]
      constructor
      · rintro ⟨hp, hcond⟩
        simp at hcond
        exact ⟨hp, hcond.2⟩
      · rintro ⟨hp, hnot⟩
        refine ⟨hp, ?_⟩
        simp
        exact ⟨hurl p hp, hnot⟩
    · intro x
      exact mem_foldl_insertUrl (fun p => p.canonicalUrl) (detectNewPosts S posts) S x
  · intro S trades
    refine ⟨List.filter_sublist _, ?_, ?_⟩
    · intro t
      rw [detectNewTrades, List.mem_filter]
      simp
    · intro x
      exact mem_foldl_insertUrl Trade.id (detectNewTrades S trades) S x

/-- C3 witness: the spec's example — seen set `{"a","b"}`, fetch
`["a","b","c"]` — where the post with identifier "c" is detected and "c"
lands in the committed set. -/
theorem detect_set_variant_witness :
    ((⟨"c", "tc"⟩ : BPost) ∈ detectNewPosts ["a", "b"] postsEx)
    ∧ ("c" ∈ commitUrls ["a", "b"] (detectNewPosts ["a", "b"] postsEx)) :=
  ⟨((detect_set_variant.1 ["a", "b"] postsEx (by decide)).2.1 ⟨"c", "tc"⟩).mpr
     ⟨by decide, by decide⟩,
   ((detect_set_variant.1 ["a", "b"] postsEx (by decide)).2.2 "c").mpr (by decide)⟩

/-- C5 counterexample: with an empty seen set and a fetch containing two new
posts, both sends precede the single end-of-batch commit; a crash after the
sends but before the commit leaves the seen set empty, so a restart
re-dispatches *both* posts — two duplicate alerts from one feed, refuting
"at most one duplicate alert per feed on restart". -/
theorem batch_crash_duplicates_cex :
    batchEvents [] [⟨"u1", "t1"⟩, ⟨"u2", "t2"⟩]
      = [BEv.send "u1", BEv.send "u2", BEv.commit ["u1", "u2"]]
    ∧ (crashRedispatch [] [⟨"u1", "t1"⟩, ⟨"u2", "t2"⟩]).length = 2
    ∧ ¬((crashRedispatch [] [⟨"u1", "t1"⟩, ⟨"u2", "t2"⟩]).length ≤ 1) := by
  decide

/-- C5 (amended): the durable commit is ordered after every notifier send of
the cycle — in the bearcave event trace every send index precedes every
commit index, and the hedgeye critical section is either silent or exactly
websocket-send, telegram-send, then commit.  (A crash before the commit
re-dispatches the whole uncommitted batch on restart — at most one alert
for the single-slot hedgeye feed, but up to the full batch for the
set-variant feeds, as the counterexample shows.) -/
theorem commit_after_sends :
    (∀ (processed : List String) (posts : List BPost) (i j : Nat) (u : String)
        (sv : List String),
      (batchEvents processed posts)[i]? = some (BEv.send u) →
      (batchEvents processed posts)[j]? = some (BEv.commit sv) → i < j)
    ∧ (∀ (last : Option LastAlert) (a : AlertDetails) (c : String),
      alertEvents last a c = []
      ∨ alertEvents last a c =
          [HEv.sendWs (signalTypeH a.title) (extractTickerH a.title),
           HEv.sendTelegram a.title a.price,
           HEv.commitAlert ⟨a.title, a.price, c⟩]) := by
  constructor
  · intro processed posts i j u sv hi hj
    simp only [batchEvents] at hi hj
    by_cases hemp : (detectNewPosts processed posts).isEmpty
    · simp [hemp] at hi
    · rw [if_neg hemp] at hi hj
      rcases Nat.lt_or_ge j (detectNewPosts processed posts).length with hjn | hjn
      · rw [List.getElem?_append_left (by simpa using hjn)] at hj
        have hmem := List.getElem?_mem hj
        rcases List.mem_map.mp hmem with ⟨p, -, hpe⟩
        cases hpe
      · rcases Nat.lt_or_ge i (detectNewPosts processed posts).length with hin | hin
        · omega
        · rw [List.getElem?_append_right (by simpa using hin)] at hi
          have hmem := List.getElem?_mem hi
          simp at hmem
  · intro last a c
    unfold alertEvents
    by_cases h : (processAlert last a c).1
    · right; rw [if_pos h]
    · left; rw [if_neg h]

/-- C5 witness: a one-post batch whose send sits at index 0 and commit at
index 1 in the event trace. -/
theorem commit_after_sends_witness : (0 : Nat) < 1 :=
  commit_after_sends.1 [] [⟨"a", "ta"⟩] 0 1 "a" ["a"] (by decide) (by decide)

/-- Helper: `leadsWith hay nd` is the `nd`-at-the-front decomposition. -/
theorem leadsWith_iff (nd : List Char) :
    ∀ hay, leadsWith hay nd = true ↔ ∃ post, hay = nd ++ post := by
  induction nd with
  | nil =>
    intro hay
    simp [leadsWith]
  | cons d u ih =>
    intro hay
    cases hay with
    | nil => simp [leadsWith]
    | cons c t =>
      rw [leadsWith, Bool.and_eq_true, beq_iff_eq]
      constructor
      · rintro ⟨rfl, h2⟩
        rcases (ih t).mp h2 with ⟨post, rfl⟩
        exact ⟨post, rfl⟩
      · rintro ⟨post, hp⟩
        rcases List.cons_eq_cons.mp hp with ⟨rfl, ht⟩
        exact ⟨rfl, (ih t).mpr ⟨post, ht⟩⟩

/-- Helper: `containsSub` is exactly the substring decomposition. -/
theorem containsSub_iff (nd : List Char) :
    ∀ hay, containsSub hay nd = true ↔ ContainsSub hay nd := by
  intro hay
  induction hay with
  | nil =>
    rw [containsSub]
    constructor
    · intro h
      exact ⟨[], [], by simp [List.isEmpty_iff.mp h]⟩
    · rintro ⟨pre, post, heq⟩
      rcases List.append_eq_nil.mp heq.symm with ⟨h1, rfl⟩
      rcases List.append_eq_nil.mp h1 with ⟨rfl, rfl⟩
      rfl
  | cons c t ih =>
    rw [containsSub, Bool.or_eq_true]
    constructor
    · intro h
      rcases h with h' | h'
      · rcases (leadsWith_iff nd (c :: t)).mp h' with ⟨post, hp⟩
        exact ⟨[], post, by simpa using hp⟩
      · rcases ih.mp h' with ⟨pre, post, hp⟩
        exact ⟨c :: pre, post, by simp [hp]⟩
    · rintro ⟨pre, post, heq⟩
      cases pre with
      | nil =>
        exact Or.inl ((leadsWith_iff nd (c :: t)).mpr ⟨post, by simpa using heq⟩)
      | cons c' pre' =>
        simp only [List.cons_append, List.append_assoc] at heq
        rcases List.cons_eq_cons.mp heq with ⟨-, ht⟩
        refine Or.inr (ih.mpr ⟨pre', post, ?_⟩)
        simpa [List.append_assoc] using ht

/-- Helper: an `[A-Z]` character is a word character. -/
theorem upper_isWord {c : Char} (h : isUpperAZ c = true) : isWordChar c = true := by
  simp only [isUpperAZ] at h
  simp [isWordChar, Char.isAlpha, h]

/-- Helper: `upperRun` splits its input. -/
theorem upperRun_append_eq : ∀ s : List Char, (upperRun s).1 ++ (upperRun s).2 = s := by
  intro s
  induction s with
  | nil => rfl
  | cons c rest ih =>
    rw [upperRun]
    by_cases h : isUpperAZ c
    · simp only [h, if_true]
      simpa using ih
    · simp [h]

/-- Helper: the first component of `upperRun` is all uppercase. -/
theorem upperRun_fst_upper : ∀ s : List Char, ∀ c ∈ (upperRun s).1, isUpperAZ c = true := by
  intro s
  induction s with
  | nil => intro c hc; cases hc
  | cons d rest ih =>
    intro c hc
    rw [upperRun] at hc
    by_cases h : isUpperAZ d
    · simp only [h, if_true] at hc
      rcases List.mem_cons.mp hc with rfl | hc'
      · exact h
      · exact ih c hc'
    · simp [h] at hc

/-- Helper: the rest after the uppercase run does not start with an uppercase
letter. -/
theorem upperRun_snd_head :
    ∀ s : List Char, ∀ c, (upperRun s).2.head? = some c → isUpperAZ c = false := by
  intro s
  induction s with
  | nil => intro c hc; cases hc
  | cons d rest ih =>
    intro c hc
    rw [upperRun] at hc
    by_cases h : isUpperAZ d
    · simp only [h, if_true] at hc
      exact ih c hc
    · simp only [h, if_false] at hc
      cases hc
      simpa using h

/-- Helper: `upperRun` on an explicit uppercase-then-rest split. -/
theorem upperRun_of_append {u r : List Char}
    (hu : ∀ c ∈ u, isUpperAZ c = true)
    (hr : ∀ c, r.head? = some c → isUpperAZ c = false) :
    upperRun (u ++ r) = (u, r) := by
  induction u with
  | nil =>
    cases r with
    | nil => rfl
    | cons c r' =>
      rw [List.nil_append, upperRun]
      simp [hr c rfl]
  | cons c u' ih =>
    have hc : isUpperAZ c = true := hu c (List.mem_cons_self c u')
    rw [List.cons_append, upperRun]
    simp only [hc, if_true]
    rw [ih (fun d hd => hu d (List.mem_cons_of_mem c hd))]

/-- Helper: a successful `matchTickerAt` is exactly a `MatchProps`
decomposition at the current position. -/
theorem matchTickerAt_eq_some {s w : List Char} :
    matchTickerAt s = some w ↔ ∃ post, s = w ++ post ∧ MatchProps w post := by
  constructor
  · intro h
    rw [matchTickerAt] at h
    by_cases hcond : (decide (1 ≤ (upperRun s).1.length)
        && decide ((upperRun s).1.length ≤ 5)
        && (match (upperRun s).2 with | [] => true | c :: _ => !isWordChar c)
        && dollarLA (upperRun s).2) = true
    · rw [if_pos hcond] at h
      cases h
      rw [Bool.and_eq_true] at hcond
      obtain ⟨hcond', hdollar⟩ := hcond
      rw [Bool.and_eq_true] at hcond'
      obtain ⟨hcond'', hhead⟩ := hcond'
      rw [Bool.and_eq_true] at hcond''
      obtain ⟨hlen1, hlen5⟩ := hcond''
      refine ⟨(upperRun s).2, (upperRun_append_eq s).symm, ?_, ?_, ?_, ?_, hdollar⟩
      · have h1 : 1 ≤ (upperRun s).1.length := of_decide_eq_true hlen1
        intro hnil
        rw [hnil] at h1
        exact absurd h1 (by simp)
      · exact of_decide_eq_true hlen5
      · exact upperRun_fst_upper s
      · show NonWordHead (upperRun s).2
        rcases hr : (upperRun s).2 with _ | ⟨c, r'⟩
        · exact trivial
        · rw [hr] at hhead
          show isWordChar c = false
          simpa using hhead
    · rw [if_neg hcond] at h
      cases h
  · rintro ⟨post, rfl, hne, hlen, hup, hhead, hdollar⟩
    have hr : ∀ c, post.head? = some c → isUpperAZ c = false := by
      intro c hc
      cases post with
      | nil => cases hc
      | cons d post' =>
        have hdc : d = c := by simpa using hc
        subst hdc
        have hw : isWordChar d = false := hhead
        cases h' : isUpperAZ d
        · rfl
        · rw [upper_isWord h'] at hw
          cases hw
    rw [matchTickerAt, upperRun_of_append hup hr]
    split
    · rfl
    · next hneg =>
      exfalso
      apply hneg
      have h1 : 1 ≤ w.length := List.length_pos.mpr hne
      cases post with
      | nil => simp [dollarLA] at hdollar
      | cons c post' =>
        have hw : isWordChar c = false := hhead
        simp [h1, hlen, hw, hdollar]

/-- Helper: shifting the scan by one character shifts the boundary flag. -/
theorem boundary_cons (b : Bool) (c : Char) (pre : List Char) :
    BoundaryBefore b (c :: pre) ↔ BoundaryBefore (isWordChar c) pre := by
  cases pre with
  | nil => simp [BoundaryBefore]
  | cons d pre' =>
    cases hgl : (d :: pre').getLast? with
    | none => exact absurd (List.getLast?_eq_none_iff.mp hgl) (by simp)
    | some e => simp [BoundaryBefore, List.getLast?_cons_cons, hgl]

/-- Helper: at the start of the string the boundary flag condition is the
claim-level "preceded by nothing or by a non-word character". -/
theorem boundary_false_iff (pre : List Char) :
    BoundaryBefore false pre
      ↔ (pre = [] ∨ ∃ c, pre.getLast? = some c ∧ isWordChar c = false) := by
  constructor
  · intro h
    cases hp : pre.getLast? with
    | none => exact Or.inl (List.getLast?_eq_none_iff.mp hp)
    | some c =>
      refine Or.inr ⟨c, rfl, ?_⟩
      unfold BoundaryBefore at h
      rw [hp] at h
      exact h
  · intro h
    rcases h with rfl | ⟨c, hc, hw⟩
    · rfl
    · unfold BoundaryBefore
      rw [hc]
      exact hw

/-- Helper: `searchTicker` returns `none` exactly when no position of the
input carries a boundary-respecting match. -/
theorem searchTicker_eq_none :
    ∀ (s : List Char) (b : Bool),
      searchTicker b s = none ↔
        ∀ pre w post, s = pre ++ w ++ post → BoundaryBefore b pre →
          ¬ MatchProps w post := by
  intro s
  induction s with
  | nil =>
    intro b
    constructor
    · intro _ pre w post heq _ hm
      rcases List.append_eq_nil.mp heq.symm with ⟨h1, rfl⟩
      rcases List.append_eq_nil.mp h1 with ⟨rfl, rfl⟩
      exact hm.1 rfl
    · intro _; rfl
  | cons c rest ih =>
    intro b
    cases b with
    | true =>
      have hL : searchTicker true (c :: rest) = searchTicker (isWordChar c) rest := by
        simp [searchTicker]
      rw [hL, ih (isWordChar c)]
      constructor
      · intro h pre w post heq hbound hm
        cases pre with
        | nil => exact absurd hbound (by simp [BoundaryBefore])
        | cons c' pre' =>
          simp only [List.cons_append] at heq
          rcases List.cons_eq_cons.mp heq with ⟨rfl, hrest⟩
          exact h pre' w post hrest ((boundary_cons true c pre').mp hbound) hm
      · intro h pre'' w post heq hbound hm
        exact h (c :: pre'') w post (by simp [List.cons_append, heq])
          ((boundary_cons true c pre'').mpr hbound) hm
    | false =>
      cases hmt : matchTickerAt (c :: rest) with
      | some u =>
        have hL : searchTicker false (c :: rest) = some u := by
          simp [searchTicker, hmt]
        rw [hL]
        constructor
        · intro h; cases h
        · intro h
          rcases matchTickerAt_eq_some.mp hmt with ⟨post₀, heq₀, hm₀⟩
          exact absurd hm₀ (h [] u post₀ (by simpa using heq₀) (by rfl))
      | none =>
        have hL : searchTicker false (c :: rest) = searchTicker (isWordChar c) rest := by
          simp [searchTicker, hmt]
        rw [hL, ih (isWordChar c)]
        constructor
        · intro h pre w post heq hbound hm
          cases pre with
          | nil =>
            have hsomem : matchTickerAt (c :: rest) = some w :=
              matchTickerAt_eq_some.mpr ⟨post, by simpa using heq, hm⟩
            rw [hmt] at hsomem
            cases hsomem
          | cons c' pre' =>
            simp only [List.cons_append] at heq
            rcases List.cons_eq_cons.mp heq with ⟨rfl, hrest⟩
            exact h pre' w post hrest ((boundary_cons false c pre').mp hbound) hm
        · intro h pre'' w post heq hbound hm
          exact h (c :: pre'') w post (by simp [List.cons_append, heq])
            ((boundary_cons false c pre'').mpr hbound) hm

/-- Helper: `searchTicker` returns `some w` exactly when `w` matches at the
*leftmost* boundary-respecting match position of the input. -/
theorem searchTicker_eq_some :
    ∀ (s : List Char) (b : Bool) (w : List Char),
      searchTicker b s = some w ↔
        ∃ pre post, s = pre ++ w ++ post ∧ BoundaryBefore b pre ∧ MatchProps w post ∧
          ∀ pre' w' post', s = pre' ++ w' ++ post' → BoundaryBefore b pre' →
            MatchProps w' post' → pre.length ≤ pre'.length := by
  intro s
  induction s with
  | nil =>
    intro b w
    constructor
    · intro h; simp [searchTicker] at h
    · rintro ⟨pre, post, heq, -, hm, -⟩
      rcases List.append_eq_nil.mp heq.symm with ⟨h1, rfl⟩
      rcases List.append_eq_nil.mp h1 with ⟨rfl, rfl⟩
      exact absurd rfl hm.1
  | cons c rest ih =>
    intro b w
    cases b with
    | true =>
      have hL : searchTicker true (c :: rest) = searchTicker (isWordChar c) rest := by
        simp [searchTicker]
      rw [hL, ih (isWordChar c) w]
      constructor
      · rintro ⟨pre, post, heq, hbound, hm, hmin⟩
        refine ⟨c :: pre, post, by simp [List.cons_append, heq],
          (boundary_cons true c pre).mpr hbound, hm, ?_⟩
        intro pre' w' post' heq' hbound' hm'
        cases pre' with
        | nil => exact absurd hbound' (by simp [BoundaryBefore])
        | cons c'' pre'' =>
          simp only [List.cons_append] at heq'
          rcases List.cons_eq_cons.mp heq' with ⟨rfl, hrest⟩
          have hle := hmin pre'' w' post' hrest ((boundary_cons true c pre'').mp hbound') hm'
          simp only [List.length_cons]
          omega
      · rintro ⟨pre, post, heq, hbound, hm, hmin⟩
        cases pre with
        | nil => exact absurd hbound (by simp [BoundaryBefore])
        | cons c' pre' =>
          simp only [List.cons_append] at heq
          rcases List.cons_eq_cons.mp heq with ⟨rfl, hrest⟩
          refine ⟨pre', post, hrest, (boundary_cons true c pre').mp hbound, hm, ?_⟩
          intro pre₂ w₂ post₂ heq₂ hbound₂ hm₂
          have hle := hmin (c :: pre₂) w₂ post₂ (by simp [List.cons_append, heq₂])
            ((boundary_cons true c pre₂).mpr hbound₂) hm₂
          simp only [List.length_cons] at hle
          omega
    | false =>
      cases hmt : matchTickerAt (c :: rest) with
      | some u =>
        have hL : searchTicker false (c :: rest) = some u := by
          simp [searchTicker, hmt]
        rw [hL]
        rcases matchTickerAt_eq_some.mp hmt with ⟨post₀, heq₀, hm₀⟩
        constructor
        · intro h
          injection h with hw
          subst hw
          refine ⟨[], post₀, by simpa using heq₀, by rfl, hm₀, ?_⟩
          intro pre' w' post' _ _ _
          simp
        · rintro ⟨pre, post, heq, hbound, hm, hmin⟩
          have h0 : pre.length ≤ 0 := by
            simpa using hmin [] u post₀ (by simpa using heq₀) (by rfl) hm₀
          have hpre : pre = [] := List.length_eq_zero.mp (Nat.le_zero.mp h0)
          subst hpre
          have hsome : matchTickerAt (c :: rest) = some w :=
            matchTickerAt_eq_some.mpr ⟨post, by simpa using heq, hm⟩
          rw [hmt] at hsome
          exact hsome
      | none =>
        have hL : searchTicker false (c :: rest) = searchTicker (isWordChar c) rest := by
          simp [searchTicker, hmt]
        rw [hL, ih (isWordChar c) w]
        constructor
        · rintro ⟨pre, post, heq, hbound, hm, hmin⟩
          refine ⟨c :: pre, post, by simp [List.cons_append, heq],
            (boundary_cons false c pre).mpr hbound, hm, ?_⟩
          intro pre' w' post' heq' hbound' hm'
          cases pre' with
          | nil =>
            have hsome : matchTickerAt (c :: rest) = some w' :=
              matchTickerAt_eq_some.mpr ⟨post', by simpa using heq', hm'⟩
            rw [hmt] at hsome
            cases hsome
          | cons c'' pre'' =>
            simp only [List.cons_append] at heq'
            rcases List.cons_eq_cons.mp heq' with ⟨rfl, hrest⟩
            have hle := hmin pre'' w' post' hrest
              ((boundary_cons false c pre'').mp hbound') hm'
            simp only [List.length_cons]
            omega
        · rintro ⟨pre, post, heq, hbound, hm, hmin⟩
          cases pre with
          | nil =>
            have hsome : matchTickerAt (c :: rest) = some w :=
              matchTickerAt_eq_some.mpr ⟨post, by simpa using heq, hm⟩
            rw [hmt] at hsome
            cases hsome
          | cons c' pre' =>
            simp only [List.cons_append] at heq
            rcases List.cons_eq_cons.mp heq with ⟨rfl, hrest⟩
            refine ⟨pre', post, hrest, (boundary_cons false c pre').mp hbound, hm, ?_⟩
            intro pre₂ w₂ post₂ heq₂ hbound₂ hm₂
            have hle := hmin (c :: pre₂) w₂ post₂ (by simp [List.cons_append, heq₂])
              ((boundary_cons false c pre₂).mpr hbound₂) hm₂
            simp only [List.length_cons] at hle
            omega

/-- C10: signal precedence and ticker extraction of the hedgeye dispatch.
The signal type is "Buy" iff the lowercased title contains "buy" (so a title
containing both "buy" and "sell" is classified "Buy"), "Sell" iff it
contains "sell" but not "buy", and "None" otherwise; the ticker is the word
of 1-5 uppercase letters at the leftmost boundary-respecting position that
is followed by optional whitespace and a dollar sign (`TickerTokenAt`), and
"-" when no such word exists. -/
theorem signal_and_ticker_classification :
    ∀ t : String,
      ((signalTypeH t = "Buy" ↔ ContainsSub t.toLower.data "buy".data)
      ∧ (signalTypeH t = "Sell" ↔
          (¬ ContainsSub t.toLower.data "buy".data
            ∧ ContainsSub t.toLower.data "sell".data))
      ∧ (signalTypeH t = "None" ↔
          (¬ ContainsSub t.toLower.data "buy".data
            ∧ ¬ ContainsSub t.toLower.data "sell".data)))
      ∧ ((∃ pre w post, TickerTokenAt t.data pre w post
            ∧ (∀ pre' w' post', TickerTokenAt t.data pre' w' post' →
                pre.length ≤ pre'.length)
            ∧ extractTickerH t = String.mk w)
        ∨ ((∀ pre w post, ¬ TickerTokenAt t.data pre w post)
            ∧ extractTickerH t = "-")) := by
  intro t
  constructor
  · by_cases hbuy : containsSub t.toLower.data "buy".data = true
    · have hB : ContainsSub t.toLower.data "buy".data :=
        (containsSub_iff "buy".data t.toLower.data).mp hbuy
      have hSig : signalTypeH t = "Buy" := by rw [signalTypeH, if_pos hbuy]
      refine ⟨by simp [hSig, hB], ?_, ?_⟩
      · rw [hSig]
        constructor
        · intro h; exact absurd h (by decide)
        · rintro ⟨hnb, -⟩; exact absurd hB hnb
      · rw [hSig]
        constructor
        · intro h; exact absurd h (by decide)
        · rintro ⟨hnb, -⟩; exact absurd hB hnb
    · have hnB : ¬ ContainsSub t.toLower.data "buy".data :=
        fun hc => hbuy ((containsSub_iff "buy".data t.toLower.data).mpr hc)
      by_cases hsell : containsSub t.toLower.data "sell".data = true
      · have hS : ContainsSub t.toLower.data "sell".data :=
          (containsSub_iff "sell".data t.toLower.data).mp hsell
        have hSig : signalTypeH t = "Sell" := by
          rw [signalTypeH, if_neg hbuy, if_pos hsell]
        refine ⟨?_, by simp [hSig, hnB, hS], ?_⟩
        · rw [hSig]
          constructor
          · intro h; exact absurd h (by decide)
          · intro hB; exact absurd hB hnB
        · rw [hSig]
          constructor
          · intro h; exact absurd h (by decide)
          · rintro ⟨-, hns⟩; exact absurd hS hns
      · have hnS : ¬ ContainsSub t.toLower.data "sell".data :=
          fun hc => hsell ((containsSub_iff "sell".data t.toLower.data).mpr hc)
        have hSig : signalTypeH t = "None" := by
          rw [signalTypeH, if_neg hbuy, if_neg hsell]
        refine ⟨?_, ?_, by simp [hSig, hnB, hnS]⟩
        · rw [hSig]
          constructor
          · intro h; exact absurd h (by decide)
          · intro hB; exact absurd hB hnB
        · rw [hSig]
          constructor
          · intro h; exact absurd h (by decide)
          · rintro ⟨-, hS⟩; exact absurd hS hnS
  · cases hs : searchTicker false t.data with
    | some u =>
      left
      rcases (searchTicker_eq_some t.data false u).mp hs with
        ⟨pre, post, heq, hbound, hm, hmin⟩
      refine ⟨pre, u, post, ⟨heq, (boundary_false_iff pre).mp hbound, hm⟩, ?_, ?_⟩
      · intro pre' w' post' ht
        exact hmin pre' w' post' ht.1 ((boundary_false_iff pre').mpr ht.2.1) ht.2.2
      · rw [extractTickerH, hs]
    | none =>
      right
      have hN := (searchTicker_eq_none t.data false).mp hs
      refine ⟨?_, ?_⟩
      · intro pre w post ht
        exact hN pre w post ht.1 ((boundary_false_iff pre).mpr ht.2.1) ht.2.2
      · rw [extractTickerH, hs]

end TickerScraper
